import Mathlib

/-!
# Verification of the stats-poll CSV statistics visualizer

A shallow embedding of the pure logic of `src/app.js` and the extended
variant (`src/unnamed/part_000`): CSV parsing, the numeric-column
heuristic, mean/median statistics, value distribution, date parsing and
filtering, and the pixel-interpolation helper for annotation lines.

JavaScript strings are modelled as `String` / `List Char`, JavaScript
numbers as `ℚ` (exact arithmetic over the values the program manipulates),
JavaScript objects keyed by strings as association lists with JS
assignment semantics (an existing key is updated in place, a new key is
appended), and `null`/`undefined` as `Option`.
-/

set_option maxHeartbeats 1000000

/-- The double-quote character (written via its code point to keep the
embedding robust inside proofs). -/
def dquote : Char := Char.ofNat 34

/-- The apostrophe character. -/
def squote : Char := Char.ofNat 39

/-- JavaScript `String.prototype.trim`: drop whitespace from both ends. -/
def jsTrim (l : List Char) : List Char :=
  ((l.dropWhile Char.isWhitespace).reverse.dropWhile Char.isWhitespace).reverse

/-- Prepend a character onto the first chunk of a list of chunks
(used to model building split results front-to-back). -/
def consHead (c : Char) : List (List Char) → List (List Char)
  | [] => [[c]]
  | s :: t => (c :: s) :: t

/-- JavaScript `csvText.split('\n')`: split into the chunks between
newline characters (the result always has at least one chunk). -/
def splitNewline : List Char → List (List Char)
  | [] => [[]]
  | c :: rest =>
    if c = '\n' then [] :: splitNewline rest else consHead c (splitNewline rest)

/-- The character loop of `parseCSVLine` (src/app.js lines 68-88):
`result` is the list of already-pushed fields, `current` the field being
accumulated, `inQuotes` the quote state.  A `"` toggles the quote state
and is dropped; a `,` outside quotes pushes `current.trim()`; any other
character is appended to `current`. -/
def parseCSVLineAux : List Char → List (List Char) → List Char → Bool → List (List Char)
  | [], result, current, _ => result ++ [jsTrim current]
  | c :: rest, result, current, inQuotes =>
    if c = dquote then
      parseCSVLineAux rest result current (!inQuotes)
    else if c = ',' ∧ inQuotes = false then
      parseCSVLineAux rest (result ++ [jsTrim current]) [] inQuotes
    else
      parseCSVLineAux rest result (current ++ [c]) inQuotes

/-- `parseCSVLine` from src/app.js lines 68-88 / part_000 lines 251-271. -/
def parseCSVLine (line : String) : List String :=
  (parseCSVLineAux line.toList [] [] false).map fun cs => (⟨cs⟩ : String)

/-! ## Declarative description of the CSV field splitter

The specification side of claim C3: a comma "lies outside double quotes"
exactly when the number of double quotes strictly before it is even.  The
line is cut at exactly those commas; the resulting raw segments, with the
double quotes deleted and the ends trimmed, are the fields. -/

/-- Position `i` of `l` holds a comma that lies outside double quotes:
the number of `"` characters strictly before it is even. -/
def isUnquotedCommaAt (l : List Char) (i : Nat) : Bool :=
  (l.getD i ' ' = ',') && ((l.take i).count dquote) % 2 = 0

/-- Index of the first comma of `l` lying outside double quotes, if any. -/
def firstUnquotedComma (l : List Char) : Option Nat :=
  (List.range l.length).find? (fun i => isUnquotedCommaAt l i)

theorem find?_range'_eq_some {p : Nat → Bool} :
    ∀ (n s i : Nat), (List.range' s n).find? p = some i →
      p i = true ∧ s ≤ i ∧ ∀ j, s ≤ j → j < i → p j = false := by
  intro n
  induction n with
  | zero => intro s i h; simp [List.range'] at h
  | succ n ih =>
    intro s i h
    rw [List.range'] at h
    by_cases hs : p s = true
    · rw [List.find?_cons_of_pos _ hs] at h
      cases h
      exact ⟨hs, le_refl _, fun j h1 h2 => absurd (lt_of_le_of_lt h1 h2) (lt_irrefl _)⟩
    · rw [List.find?_cons_of_neg _ hs] at h
      obtain ⟨hp, hsi, hmin⟩ := ih (s + 1) i h
      refine ⟨hp, le_trans (Nat.le_succ s) hsi, ?_⟩
      intro j h1 h2
      rcases Nat.eq_or_lt_of_le h1 with rfl | h1'
      · exact Bool.of_not_eq_true hs
      · exact hmin j h1' h2

theorem firstUnquotedComma_eq_some {l : List Char} {i : Nat}
    (h : firstUnquotedComma l = some i) :
    isUnquotedCommaAt l i = true ∧ i < l.length ∧
      ∀ j, j < i → isUnquotedCommaAt l j = false := by
  unfold firstUnquotedComma at h
  rw [List.range_eq_range'] at h
  obtain ⟨hp, _, hmin⟩ := find?_range'_eq_some _ _ _ h
  refine ⟨hp, ?_, fun j hj => hmin j (Nat.zero_le j) hj⟩
  have hmem := List.mem_of_find?_eq_some h
  have := List.mem_range'_1.mp hmem
  omega

theorem firstUnquotedComma_eq_none {l : List Char}
    (h : firstUnquotedComma l = none) :
    ∀ i, i < l.length → isUnquotedCommaAt l i = false := by
  intro i hi
  have := List.find?_eq_none.mp h i ?_
  · simpa using this
  · rw [List.range_eq_range']
    exact List.mem_range'_1.mpr ⟨Nat.zero_le i, by omega⟩

theorem firstUnquotedComma_lt {l : List Char} {i : Nat}
    (h : firstUnquotedComma l = some i) : i < l.length :=
  (firstUnquotedComma_eq_some h).2.1

/-- The raw segments of `l` between the commas lying outside double
quotes, in order (declarative splitter for claim C3). -/
def specSegs (l : List Char) : List (List Char) :=
  match h : firstUnquotedComma l with
  | none => [l]
  | some i => l.take i :: specSegs (l.drop (i + 1))
termination_by l.length
decreasing_by
  have := firstUnquotedComma_lt h
  simp only [List.length_drop]
  omega

/-- Splitting machine equivalent to the character loop but producing the
raw (untrimmed) chunks: quotes are dropped, a comma at even quote parity
starts a new chunk. -/
def splitQ : List Char → Bool → List (List Char)
  | [], _ => [[]]
  | c :: rest, q =>
    if c = dquote then
      splitQ rest (!q)
    else if c = ',' ∧ q = false then
      [] :: splitQ rest false
    else
      consHead c (splitQ rest q)

/-- Prepend accumulated characters onto the first chunk. -/
def consAll (cur : List Char) : List (List Char) → List (List Char)
  | [] => [cur]
  | s :: t => (cur ++ s) :: t

theorem splitQ_ne_nil : ∀ (cs : List Char) (q : Bool), splitQ cs q ≠ [] := by
  intro cs
  induction cs with
  | nil => intro q; simp [splitQ]
  | cons c rest ih =>
    intro q
    rw [splitQ]
    split
    · exact ih (!q)
    · split
      · simp
      · cases hs : splitQ rest q with
        | nil => exact absurd hs (ih q)
        | cons s t => simp [consHead]

theorem consHead_consAll (c : Char) (cur : List Char) (s : List (List Char))
    (hs : s ≠ []) : consAll cur (consHead c s) = consAll (cur ++ [c]) s := by
  cases s with
  | nil => exact absurd rfl hs
  | cons s0 t => simp [consHead, consAll]

theorem parseCSVLineAux_eq_splitQ :
    ∀ (cs : List Char) (result : List (List Char)) (current : List Char) (q : Bool),
      parseCSVLineAux cs result current q =
        result ++ (consAll current (splitQ cs q)).map jsTrim := by
  intro cs
  induction cs with
  | nil => intro result current q; simp [parseCSVLineAux, splitQ, consAll]
  | cons c rest ih =>
    intro result current q
    rw [parseCSVLineAux, splitQ]
    split
    · exact ih result current (!q)
    · split
      · rename_i hq
        rw [ih (result ++ [jsTrim current]) [] q, hq.2]
        cases hs : splitQ rest false with
        | nil => exact absurd hs (splitQ_ne_nil rest false)
        | cons s t => simp [consAll]
      · rw [ih result (current ++ [c]) q,
          consHead_consAll c current _ (splitQ_ne_nil rest q)]

theorem splitQ_of_no_unquoted_comma :
    ∀ (cs : List Char) (q : Bool),
      (∀ i, i < cs.length → cs.getD i ' ' = ',' →
        ((cs.take i).count dquote + cond q 1 0) % 2 = 1) →
      splitQ cs q = [cs.filter fun c => decide (¬ c = dquote)] := by
  intro cs
  induction cs with
  | nil => intro q _; simp [splitQ]
  | cons c rest ih =>
    intro q h
    rw [splitQ]
    split
    · rename_i hc
      rw [List.filter_cons_of_neg (by simp [hc])]
      refine ih (!q) ?_
      intro i hi hcomma
      have := h (i + 1) (by simpa using Nat.succ_lt_succ hi) (by simpa using hcomma)
      rw [List.take_succ_cons, hc, List.count_cons_self] at this
      cases q <;> simp only [Bool.not_true, Bool.not_false, cond_true, cond_false] at this ⊢ <;> omega
    · split
      · rename_i hc hq
        have := h 0 (by simp) (by simpa using hq.1)
        rw [hq.2] at this
        simp at this
      · rename_i hc hq
        have hcne : ¬ c = ',' ∨ ¬ q = false := by tauto
        rw [List.filter_cons_of_pos (by simp [hc])]
        rw [ih q ?_]
        · simp [consHead]
        · intro i hi hcomma
          have := h (i + 1) (by simpa using Nat.succ_lt_succ hi) (by simpa using hcomma)
          have hne : dquote ≠ c := fun hh => hc hh.symm
          rw [List.take_succ_cons, List.count_cons_of_ne hne] at this
          exact this

theorem splitQ_of_first_comma :
    ∀ (cs : List Char) (q : Bool) (i : Nat),
      i < cs.length → cs.getD i ' ' = ',' →
      ((cs.take i).count dquote + cond q 1 0) % 2 = 0 →
      (∀ j, j < i → cs.getD j ' ' = ',' →
        ((cs.take j).count dquote + cond q 1 0) % 2 = 1) →
      splitQ cs q =
        (cs.take i).filter (fun c => decide (¬ c = dquote)) ::
          splitQ (cs.drop (i + 1)) false := by
  intro cs
  induction cs with
  | nil => intro q i hi; simp at hi
  | cons c rest ih =>
    intro q i hi hcomma heven hmin
    rw [splitQ]
    split
    · rename_i hc
      cases i with
      | zero => rw [List.getD_cons_zero, hc] at hcomma; simp [dquote] at hcomma
      | succ i' =>
        rw [List.getD_cons_succ] at hcomma
        rw [List.take_succ_cons]
        rw [List.filter_cons_of_neg (by simp [hc])]
        refine ih (!q) i' (by simpa using hi) hcomma ?_ ?_
        · rw [List.take_succ_cons, hc, List.count_cons_self] at heven
          cases q <;> simp only [Bool.not_true, Bool.not_false, cond_true, cond_false] at heven ⊢ <;>
            omega
        · intro j hj hjc
          have := hmin (j + 1) (by omega) (by simpa using hjc)
          rw [List.take_succ_cons, hc, List.count_cons_self] at this
          cases q <;> simp only [Bool.not_true, Bool.not_false, cond_true, cond_false] at this ⊢ <;>
            omega
    · split
      · rename_i hc hq
        cases i with
        | zero => simp [hq.2]
        | succ i' =>
          have := hmin 0 (by omega) (by simpa using hq.1)
          rw [hq.2, List.take_zero] at this
          simp at this
      · rename_i hc hq
        cases i with
        | zero =>
          rw [List.getD_cons_zero] at hcomma
          rw [List.take_zero, List.count_nil] at heven
          cases q with
          | false => exact absurd ⟨hcomma, rfl⟩ hq
          | true => simp at heven
        | succ i' =>
          rw [List.getD_cons_succ] at hcomma
          have hne : dquote ≠ c := fun hh => hc hh.symm
          rw [List.take_succ_cons, List.filter_cons_of_pos (by simp [hc])]
          rw [ih q i' (by simpa using hi) hcomma ?_ ?_]
          · simp [consHead]
          · rw [List.take_succ_cons, List.count_cons_of_ne hne] at heven
            exact heven
          · intro j hj hjc
            have := hmin (j + 1) (by omega) (by simpa using hjc)
            rw [List.take_succ_cons, List.count_cons_of_ne hne] at this
            exact this

theorem specSegs_of_none {l : List Char} (h : firstUnquotedComma l = none) :
    specSegs l = [l] := by
  rw [specSegs]
  split
  · rfl
  · rename_i i h'; rw [h] at h'; cases h'

theorem specSegs_of_some {l : List Char} {i : Nat}
    (h : firstUnquotedComma l = some i) :
    specSegs l = l.take i :: specSegs (l.drop (i + 1)) := by
  rw [specSegs]
  split
  · rename_i h'; rw [h] at h'; cases h'
  · rename_i i' h'
    rw [h] at h'
    cases h'
    rfl

theorem splitQ_eq_specSegs (l : List Char) :
    splitQ l false =
      (specSegs l).map (fun seg => seg.filter fun c => decide (¬ c = dquote)) := by
  cases h : firstUnquotedComma l with
  | none =>
    rw [specSegs_of_none h]
    refine splitQ_of_no_unquoted_comma l false ?_
    intro i hi hcomma
    have := firstUnquotedComma_eq_none h i hi
    unfold isUnquotedCommaAt at this
    simp only [hcomma, decide_eq_true_eq, Bool.true_and, cond_false, Nat.add_zero] at this
    simpa using Nat.mod_two_ne_zero.mp (by simpa using this)
  | some i =>
    obtain ⟨hp, hlt, hmin⟩ := firstUnquotedComma_eq_some h
    unfold isUnquotedCommaAt at hp
    simp only [Bool.and_eq_true, decide_eq_true_eq] at hp
    rw [specSegs_of_some h, List.map_cons]
    rw [splitQ_of_first_comma l false i hlt hp.1 (by simpa using hp.2) ?_]
    · rw [splitQ_eq_specSegs (l.drop (i + 1))]
    · intro j hj hjc
      have := hmin j hj
      unfold isUnquotedCommaAt at this
      simp only [hjc, decide_eq_true_eq, Bool.true_and, cond_false, Nat.add_zero] at this
      simpa using Nat.mod_two_ne_zero.mp (by simpa using this)
termination_by l.length
decreasing_by
  have := firstUnquotedComma_lt h
  simp only [List.length_drop]
  omega

theorem consAll_nil (s : List (List Char)) (hs : s ≠ []) : consAll [] s = s := by
  cases s with
  | nil => exact absurd rfl hs
  | cons s0 t => simp [consAll]

/-- C3: `parseCSVLine` splits a line into fields exactly at the commas
that lie outside double quotes (a comma between double quotes stays
inside its field); the fields come back in left-to-right order, with the
double-quote characters deleted and surrounding whitespace trimmed. -/
theorem parseCSVLine_spec (line : String) :
    parseCSVLine line =
      (specSegs line.toList).map
        (fun seg => (⟨jsTrim (seg.filter fun c => decide (¬ c = dquote))⟩ : String)) := by
  unfold parseCSVLine
  rw [parseCSVLineAux_eq_splitQ, consAll_nil _ (splitQ_ne_nil _ _), splitQ_eq_specSegs]
  simp [List.map_map, Function.comp]

/-! ## JavaScript objects and the dataset built by `parseCSV` -/

/-- A JavaScript object with string keys and string values, as an ordered
association list: assigning an existing key updates it in place, a new
key is appended at the end. -/
abbrev Obj : Type := List (String × String)

/-- Property read `o[k]`: `none` models `undefined`. -/
def objGet : Obj → String → Option String
  | [], _ => none
  | (k', v') :: rest, k => if k' = k then some v' else objGet rest k

/-- Property write `o[k] = v`. -/
def objSet : Obj → String → String → Obj
  | [], k, v => [(k, v)]
  | (k', v') :: rest, k, v =>
    if k' = k then (k', v) :: rest else (k', v') :: objSet rest k v

/-- The `headers.forEach((header, index) => row[header] = values[index] || '')`
loop of `parseCSV` (src/app.js lines 57-59): `values[index]` is `undefined`
past the end of `values`, and `|| ''` turns both `undefined` and the empty
string into `''`, which `List.getD i ""` captures. -/
def buildRowAux (values : List String) : List String → Nat → Obj → Obj
  | [], _, row => row
  | h :: hs, i, row => buildRowAux values hs (i + 1) (objSet row h (values.getD i ""))

/-- One row record of the dataset. -/
def buildRow (headers values : List String) : Obj :=
  buildRowAux values headers 0 []

/-- `parseCSV` from src/app.js lines 49-66 / part_000 lines 74-93: trim the
text, split into lines, parse the first line as headers, build one row
object per remaining line. -/
def parseCSV (csvText : String) : List String × List Obj :=
  let lines := splitNewline (jsTrim csvText.toList)
  let headers := parseCSVLine (⟨lines.headD []⟩ : String)
  let data := (lines.drop 1).map fun line => buildRow headers (parseCSVLine (⟨line⟩ : String))
  (headers, data)

theorem objGet_objSet_self (o : Obj) (k v : String) :
    objGet (objSet o k v) k = some v := by
  induction o with
  | nil => simp [objGet, objSet]
  | cons p rest ih =>
    obtain ⟨k', v'⟩ := p
    rw [objSet]
    split
    · rename_i h; rw [objGet, if_pos h]
    · rename_i h; rw [objGet, if_neg h]; exact ih

theorem objGet_objSet_ne (o : Obj) (k v k' : String) (h : ¬ k = k') :
    objGet (objSet o k v) k' = objGet o k' := by
  induction o with
  | nil => simp [objGet, objSet, h]
  | cons p rest ih =>
    obtain ⟨k0, v0⟩ := p
    rw [objSet]
    split
    · rename_i h0
      subst h0
      rw [objGet, if_neg h, objGet, if_neg h]
    · rw [objGet, objGet]
      split
      · rfl
      · exact ih

theorem objGet_objSet_isSome (o : Obj) (k v k' : String) :
    (objGet (objSet o k v) k').isSome = true ↔ k' = k ∨ (objGet o k').isSome = true := by
  by_cases h : k = k'
  · subst h
    simp [objGet_objSet_self]
  · rw [objGet_objSet_ne o k v k' h]
    constructor
    · exact Or.inr
    · rintro (hh | hh)
      · exact absurd hh.symm h
      · exact hh

theorem buildRowAux_isSome (values : List String) :
    ∀ (hs : List String) (i : Nat) (row : Obj) (k : String),
      (objGet (buildRowAux values hs i row) k).isSome = true ↔
        k ∈ hs ∨ (objGet row k).isSome = true := by
  intro hs
  induction hs with
  | nil => intro i row k; simp [buildRowAux]
  | cons h t ih =>
    intro i row k
    rw [buildRowAux, ih, objGet_objSet_isSome, List.mem_cons]
    tauto

theorem buildRowAux_not_mem (values : List String) :
    ∀ (hs : List String) (i : Nat) (row : Obj) (k : String), k ∉ hs →
      objGet (buildRowAux values hs i row) k = objGet row k := by
  intro hs
  induction hs with
  | nil => intro i row k _; rfl
  | cons h t ih =>
    intro i row k hk
    rw [buildRowAux, ih _ _ _ (fun hmem => hk (List.mem_cons_of_mem _ hmem)),
      objGet_objSet_ne]
    intro hh
    exact hk (hh ▸ List.mem_cons_self _ _)

theorem buildRowAux_get (values : List String) :
    ∀ (hs : List String) (i : Nat) (row : Obj), hs.Nodup →
      ∀ (j : Nat) (hj : j < hs.length),
        objGet (buildRowAux values hs i row) (hs.get ⟨j, hj⟩) =
          some (values.getD (i + j) "") := by
  intro hs
  induction hs with
  | nil => intro i row _ j hj; simp at hj
  | cons h t ih =>
    intro i row hnd j hj
    rw [buildRowAux]
    cases j with
    | zero =>
      rw [buildRowAux_not_mem values t (i + 1) _ _ (by simpa using (List.nodup_cons.mp hnd).1)]
      simpa using objGet_objSet_self row h (values.getD i "")
    | succ j' =>
      have := ih (i + 1) (objSet row h (values.getD i "")) (List.nodup_cons.mp hnd).2
        j' (by simpa using Nat.lt_of_succ_lt_succ hj)
      simpa [Nat.add_assoc, Nat.add_comm 1 j'] using this

theorem buildRowAux_take (values : List String) :
    ∀ (hs : List String) (i : Nat) (row : Obj) (n : Nat), i + hs.length ≤ n →
      buildRowAux values hs i row = buildRowAux (values.take n) hs i row := by
  intro hs
  induction hs with
  | nil => intro i row n _; rfl
  | cons h t ih =>
    intro i row n hn
    rw [buildRowAux, buildRowAux]
    simp only [List.length_cons] at hn
    rw [← ih (i + 1) _ n (by omega)]
    congr 2
    rw [List.getD_eq_getD_get?, List.getD_eq_getD_get?, List.get?_eq_getElem?,
      List.get?_eq_getElem?, List.getElem?_take_of_lt (show i < n by omega)]

theorem splitNewline_ne_nil : ∀ l : List Char, splitNewline l ≠ [] := by
  intro l
  induction l with
  | nil => simp [splitNewline]
  | cons c rest ih =>
    rw [splitNewline]
    split
    · simp
    · cases hs : splitNewline rest with
      | nil => exact absurd hs ih
      | cons s t => simp [consHead]

theorem splitNewline_headD (l : List Char) :
    (splitNewline l).headD [] = l.takeWhile fun c => decide (¬ c = '\n') := by
  induction l with
  | nil => rfl
  | cons c rest ih =>
    rw [splitNewline, List.takeWhile_cons]
    split
    · rename_i hc
      simp [hc]
    · rename_i hc
      rw [if_pos (by simpa using hc)]
      cases hs : splitNewline rest with
      | nil => exact absurd hs (splitNewline_ne_nil rest)
      | cons s t =>
        rw [hs] at ih
        simp only [consHead, List.headD_cons] at ih ⊢
        rw [ih]

/-- C8 fails as stated: `parseCSV` does nothing to make headers unique.
On the input `"a,a\n1,2"` the built dataset's header list is
`["a", "a"]`, which is not pairwise distinct. -/
theorem parseCSV_headers_counterexample :
    ¬ ((parseCSV "a,a\n1,2").1.Pairwise (· ≠ ·)) := by decide

/-- C8 amended: the header list built by `parseCSV` is exactly the parse
of the first line of the trimmed text (the prefix before the first
newline); it is pairwise distinct exactly when the fields parsed from
that first line are pairwise distinct — `parseCSV` itself never enforces
uniqueness. -/
theorem parseCSV_headers_spec (csvText : String) :
    (parseCSV csvText).1 =
      parseCSVLine (⟨(jsTrim csvText.toList).takeWhile fun c => decide (¬ c = '\n')⟩ : String) ∧
    ((parseCSV csvText).1.Pairwise (· ≠ ·) ↔
      (parseCSVLine
        (⟨(jsTrim csvText.toList).takeWhile fun c => decide (¬ c = '\n')⟩ : String)).Pairwise
        (· ≠ ·)) := by
  have h1 : (parseCSV csvText).1 =
      parseCSVLine (⟨(jsTrim csvText.toList).takeWhile fun c => decide (¬ c = '\n')⟩ : String) := by
    show parseCSVLine (⟨(splitNewline (jsTrim csvText.toList)).headD []⟩ : String) = _
    rw [splitNewline_headD]
  exact ⟨h1, by rw [h1]⟩

/-- C10: for every text, every row record of the dataset `parseCSV`
builds has exactly the header names as keys; a data line with fewer
fields than headers binds the missing headers to `""` (the
`values[index] || ''` default), and fields beyond the headers are
discarded (the row only depends on the first `headers.length` fields). -/
theorem parseCSV_rows_spec :
    (∀ (csvText : String) (row : Obj), row ∈ (parseCSV csvText).2 →
      ∀ k : String, (objGet row k).isSome = true ↔ k ∈ (parseCSV csvText).1) ∧
    (∀ headers values : List String,
      buildRow headers values = buildRow headers (values.take headers.length)) ∧
    (∀ headers values : List String, headers.Nodup →
      ∀ (j : Nat) (hj : j < headers.length),
        objGet (buildRow headers values) (headers.get ⟨j, hj⟩) =
          some (values.getD j "")) := by
  refine ⟨?_, ?_, ?_⟩
  · intro csvText row hrow k
    simp only [parseCSV, List.mem_map] at hrow
    obtain ⟨line, _, rfl⟩ := hrow
    unfold buildRow
    rw [buildRowAux_isSome]
    simp [objGet, parseCSV]
  · intro headers values
    exact buildRowAux_take values headers 0 [] headers.length (by omega)
  · intro headers values hnd j hj
    simpa using buildRowAux_get values headers 0 [] hnd j hj

/-- Witness for C10 at concrete inputs: the dataset of `"a,b\n1"` has a
row binding the present field `"a" ↦ "1"`, the missing field `"b" ↦ ""`,
keys are exactly the headers, and extra fields are discarded. -/
theorem parseCSV_rows_spec_witness :
    ((objGet (buildRow ["a", "b"] ["1"]) "b").isSome = true ↔
      "b" ∈ (parseCSV "a,b\n1").1) ∧
    (buildRow ["a"] ["1", "2", "3"] = buildRow ["a"] (["1", "2", "3"].take 1)) ∧
    (objGet (buildRow ["a", "b"] ["1"]) "b" = some "") := by
  refine ⟨?_, parseCSV_rows_spec.2.1 ["a"] ["1", "2", "3"], ?_⟩
  · have : buildRow ["a", "b"] ["1"] ∈ (parseCSV "a,b\n1").2 := by decide
    exact parseCSV_rows_spec.1 "a,b\n1" (buildRow ["a", "b"] ["1"]) this "b"
  · have := parseCSV_rows_spec.2.2 ["a", "b"] ["1"] (by decide) 1 (by decide)
    simpa using this

/-! ## The numeric-column heuristic (claim C1)

`isNumericColumn` (src/app.js lines 90-102) reads the column's values,
drops `''`, `'-'`, `null` and `undefined`, and asks whether at least 80%
of the survivors pass the JS numeric test
`!isNaN(parseFloat(val)) && isFinite(val)`.  The numeric test on strings
is a primitive of the JS runtime; the embedding abstracts it as a
parameter `isNum : String → Bool`. -/

/-- `isNumericColumn` over a list of row objects (src/app.js lines
90-102; part_000 applies the same test to the date-filtered rows, which
are again just a list of row objects).  The `filterMap` performs the
`.map(row => row[columnName])` followed by the filter dropping `''`,
`'-'`, `null` and `undefined`: the survivors are exactly the present
values different from `''` and `'-'`. -/
def isNumericColumn (isNum : String → Bool) (rows : List Obj) (columnName : String) : Bool :=
  let values := rows.filterMap fun row =>
    match objGet row columnName with
    | none => none
    | some s => if s = "" ∨ s = "-" then none else some s
  if values.length = 0 then false
  else
    let numericCount := (values.filter isNum).length
    decide ((4 : ℚ) / 5 ≤ (numericCount : ℚ) / (values.length : ℚ))

/-- Claim C1 exactly as stated: the column has at least one non-empty
value, and at least 80% of its non-empty values parse as finite numbers
(nothing is said about the placeholder `'-'`). -/
def numericColumnClaim (isNum : String → Bool) (rows : List Obj) (columnName : String) : Prop :=
  let nonEmpty := (rows.filterMap fun row => objGet row columnName).filter
    fun s => decide (¬ s = "")
  nonEmpty ≠ [] ∧
    (4 : ℚ) / 5 ≤ ((nonEmpty.filter isNum).length : ℚ) / ((nonEmpty.length : ℚ))

/-- A concrete instance of the JS numeric test, used to instantiate the
abstract `isNum` parameter on concrete data: a nonempty all-digit string
parses as a finite number (`parseFloat "5" = 5`), while `"-"` and `""`
do not (`parseFloat "-"` is `NaN`). -/
def digitNumeric (s : String) : Bool :=
  decide (¬ s.toList = []) && s.toList.all Char.isDigit

/-- C1 fails as stated: in a column holding `["5", "-", "-", "-", "-"]`
only one of the five non-empty values parses as a finite number
(20% < 80%), so the claimed criterion rejects the column, yet
`isNumericColumn` accepts it because the code removes the `'-'`
placeholders before applying the 80% threshold. -/
theorem isNumericColumn_counterexample :
    isNumericColumn digitNumeric
      [[("a", "5")], [("a", "-")], [("a", "-")], [("a", "-")], [("a", "-")]] "a" = true ∧
    ¬ numericColumnClaim digitNumeric
      [[("a", "5")], [("a", "-")], [("a", "-")], [("a", "-")], [("a", "-")]] "a" := by
  constructor
  · simp only [isNumericColumn]
    rw [show ([[("a", "5")], [("a", "-")], [("a", "-")], [("a", "-")],
        [("a", "-")]].filterMap fun row =>
          match objGet row "a" with
          | none => none
          | some s => if s = "" ∨ s = "-" then none else some s) = ["5"] from by decide]
    rw [show (["5"].filter digitNumeric) = ["5"] from by decide]
    simp only [List.length_cons, List.length_nil, if_neg (by omega : ¬ (0 + 1 = 0))]
    rw [decide_eq_true_eq]
    norm_num
  · intro h
    have h2 := h.2
    simp only [numericColumnClaim] at h2
    rw [show (([[("a", "5")], [("a", "-")], [("a", "-")], [("a", "-")],
        [("a", "-")]].filterMap fun row => objGet row "a").filter
          fun s => decide (¬ s = "")) = ["5", "-", "-", "-", "-"] from by decide] at h2
    rw [show (["5", "-", "-", "-", "-"].filter digitNumeric) = ["5"] from by decide] at h2
    norm_num at h2

/-- C1 amended: `isNumericColumn` accepts a column iff the column has at
least one value that is present and neither `''` nor `'-'`, and at least
80% of those values pass the numeric test. -/
theorem isNumericColumn_spec (isNum : String → Bool) (rows : List Obj) (columnName : String) :
    isNumericColumn isNum rows columnName = true ↔
      ((rows.filterMap fun row => objGet row columnName).filter
          (fun s => decide (¬ s = "" ∧ ¬ s = "-")) ≠ [] ∧
        4 * ((rows.filterMap fun row => objGet row columnName).filter
            (fun s => decide (¬ s = "" ∧ ¬ s = "-"))).length ≤
          5 * (((rows.filterMap fun row => objGet row columnName).filter
            (fun s => decide (¬ s = "" ∧ ¬ s = "-"))).filter isNum).length) := by
  have hvals : (rows.filterMap fun row =>
      match objGet row columnName with
      | none => none
      | some s => if s = "" ∨ s = "-" then none else some s) =
      (rows.filterMap fun row => objGet row columnName).filter
        (fun s => decide (¬ s = "" ∧ ¬ s = "-")) := by
    induction rows with
    | nil => rfl
    | cons row rest ih =>
      cases hr : objGet row columnName with
      | none => simp [List.filterMap_cons, hr, ih]
      | some s =>
        by_cases hs : s = "" ∨ s = "-"
        · have hs' : ¬ (¬ s = "" ∧ ¬ s = "-") := by tauto
          simp [List.filterMap_cons, hr, if_pos hs, hs', ih]
        · have hs' : ¬ s = "" ∧ ¬ s = "-" := by tauto
          simp [List.filterMap_cons, hr, if_neg hs, hs', ih]
  simp only [isNumericColumn]
  rw [hvals]
  set vals := (rows.filterMap fun row => objGet row columnName).filter
    (fun s => decide (¬ s = "" ∧ ¬ s = "-")) with hv
  by_cases h0 : vals.length = 0
  · rw [if_pos h0]
    simp [List.length_eq_zero.mp h0]
  · rw [if_neg h0]
    have hpos : (0 : ℚ) < (vals.length : ℚ) := by
      exact_mod_cast Nat.pos_of_ne_zero h0
    rw [decide_eq_true_eq, div_le_div_iff₀ (by norm_num) hpos]
    constructor
    · intro hle
      refine ⟨fun hnil => h0 (by rw [hnil]; rfl), ?_⟩
      have hc : 4 * (vals.length : ℚ) ≤ ((vals.filter isNum).length : ℚ) * 5 := by
        exact_mod_cast hle
      have : 4 * vals.length ≤ (vals.filter isNum).length * 5 := by exact_mod_cast hc
      omega
    · rintro ⟨-, hle⟩
      have : 4 * vals.length ≤ (vals.filter isNum).length * 5 := by omega
      exact_mod_cast this

/-! ## Statistics (claims C2, C9)

`calculateStats` (src/app.js lines 137-149).  JS `[...values].sort((a, b)
=> a - b)` reorders the numbers ascendingly; over numbers the ascending
reordering of a list is unique as a list, so any sorting algorithm is a
faithful model — insertion sort is used here.  `sorted.length / 2` uses
exact division on an even length and `Math.floor` on an odd one; both are
Nat division. -/

/-- `calculateStats` from src/app.js lines 137-149 / part_000 lines
327-340. -/
def calculateStats (values : List ℚ) : ℚ × ℚ :=
  if values.length = 0 then (0, 0)
  else
    let sum := values.foldl (fun acc val => acc + val) 0
    let average := sum / (values.length : ℚ)
    let sorted := values.insertionSort (· ≤ ·)
    let median :=
      if sorted.length % 2 = 0 then
        (sorted.getD (sorted.length / 2 - 1) 0 + sorted.getD (sorted.length / 2) 0) / 2
      else
        sorted.getD (sorted.length / 2) 0
    (average, median)

theorem foldl_add_eq_sum : ∀ (l : List ℚ) (a : ℚ),
    l.foldl (fun acc val => acc + val) a = a + l.sum := by
  intro l
  induction l with
  | nil => intro a; simp
  | cons x rest ih => intro a; rw [List.foldl_cons, ih, List.sum_cons]; ring

/-- C2: over a non-empty list, `calculateStats` returns the average
`sum / count`, and the median is the middle element of the ascending
sort for an odd count, or the mean of the two middle elements of the
ascending sort for an even count (`s` is any ascending reordering of the
values). -/
theorem calculateStats_spec (values s : List ℚ) (hne : values ≠ [])
    (hperm : s.Perm values) (hsort : s.Sorted (· ≤ ·)) :
    (calculateStats values).1 = values.sum / (values.length : ℚ) ∧
    (calculateStats values).2 =
      (if values.length % 2 = 1 then
        s.getD (values.length / 2) 0
      else
        (s.getD (values.length / 2 - 1) 0 + s.getD (values.length / 2) 0) / 2) := by
  have hlen : ¬ values.length = 0 := by simpa using hne
  have hs : values.insertionSort (· ≤ ·) = s :=
    List.eq_of_perm_of_sorted
      ((List.perm_insertionSort _ values).trans hperm.symm)
      (List.sorted_insertionSort _ values) hsort
  have hslen : (values.insertionSort (· ≤ ·)).length = values.length :=
    (List.perm_insertionSort _ values).length_eq
  rw [hs] at hslen
  constructor
  · simp only [calculateStats, if_neg hlen]
    rw [foldl_add_eq_sum]
    norm_num
  · simp only [calculateStats, if_neg hlen, hs, hslen]
    rcases Nat.mod_two_eq_zero_or_one values.length with hpar | hpar
    · rw [if_pos hpar, if_neg (by omega)]
    · rw [if_neg (by omega), if_pos hpar]

/-- Witness for C2 at the concrete list `[3, 1]` (ascending reordering
`[1, 3]`). -/
theorem calculateStats_spec_witness :
    (calculateStats [3, 1]).1 = ([3, 1] : List ℚ).sum / (([3, 1] : List ℚ).length : ℚ) ∧
    (calculateStats [3, 1]).2 =
      (if ([3, 1] : List ℚ).length % 2 = 1 then
        ([1, 3] : List ℚ).getD (([3, 1] : List ℚ).length / 2) 0
      else
        (([1, 3] : List ℚ).getD (([3, 1] : List ℚ).length / 2 - 1) 0 +
          ([1, 3] : List ℚ).getD (([3, 1] : List ℚ).length / 2) 0) / 2) :=
  calculateStats_spec [3, 1] [1, 3] (by simp) (List.Perm.swap 3 1 [])
    (by norm_num [List.sorted_cons])

/-- C9: `calculateStats` is total: the empty list maps to
`(average, median) = (0, 0)` through the guard rather than an error, and
for a non-empty list the divisor is positive and every index used on the
sorted array (`length / 2` and, for even lengths, `length / 2 - 1`) is
in bounds, so no error branch is reachable. -/
theorem calculateStats_total :
    calculateStats ([] : List ℚ) = (0, 0) ∧
    ∀ values : List ℚ, values ≠ [] →
      0 < values.length ∧
      values.length / 2 < values.length ∧
      (values.length % 2 = 0 →
        values.length / 2 - 1 < values.length ∧ values.length / 2 < values.length) := by
  constructor
  · rfl
  · intro values hne
    have hpos : 0 < values.length := List.length_pos.mpr hne
    exact ⟨hpos, by omega, fun _ => ⟨by omega, by omega⟩⟩

/-- Witness for C9 at the concrete list `[5, 7]`. -/
theorem calculateStats_total_witness :
    calculateStats ([] : List ℚ) = (0, 0) ∧
    (0 < ([5, 7] : List ℚ).length ∧
      ([5, 7] : List ℚ).length / 2 < ([5, 7] : List ℚ).length ∧
      (([5, 7] : List ℚ).length % 2 = 0 →
        ([5, 7] : List ℚ).length / 2 - 1 < ([5, 7] : List ℚ).length ∧
        ([5, 7] : List ℚ).length / 2 < ([5, 7] : List ℚ).length)) :=
  ⟨calculateStats_total.1, calculateStats_total.2 [5, 7] (by simp)⟩

/-! ## The value distribution (claim C7)

`getDistribution` (src/app.js lines 151-157) builds a JS object mapping
each value to its occurrence count via
`distribution[val] = (distribution[val] || 0) + 1`.  The object is keyed
by the number's string; distinct numbers have distinct canonical
strings, so the object is modelled as an association list keyed by the
value itself. -/

/-- Read an entry of the distribution object. -/
def distGet : List (ℚ × Nat) → ℚ → Option Nat
  | [], _ => none
  | (k, c) :: rest, v => if k = v then some c else distGet rest v

/-- One step `distribution[val] = (distribution[val] || 0) + 1`. -/
def distAdd : List (ℚ × Nat) → ℚ → List (ℚ × Nat)
  | [], v => [(v, 1)]
  | (k, c) :: rest, v =>
    if k = v then (k, c + 1) :: rest else (k, c) :: distAdd rest v

/-- `getDistribution` from src/app.js lines 151-157 / part_000 lines
342-348. -/
def getDistribution (values : List ℚ) : List (ℚ × Nat) :=
  values.foldl distAdd []

theorem distGet_distAdd_self (d : List (ℚ × Nat)) (v : ℚ) :
    distGet (distAdd d v) v = some ((distGet d v).getD 0 + 1) := by
  induction d with
  | nil => simp [distGet, distAdd]
  | cons p rest ih =>
    obtain ⟨k, c⟩ := p
    rw [distAdd]
    split
    · rename_i h; rw [distGet, if_pos h, distGet, if_pos h]; rfl
    · rename_i h; rw [distGet, if_neg h, distGet, if_neg h]; exact ih

theorem distGet_distAdd_ne (d : List (ℚ × Nat)) (v w : ℚ) (h : ¬ w = v) :
    distGet (distAdd d v) w = distGet d w := by
  induction d with
  | nil =>
    simp only [distAdd, distGet]
    rw [if_neg (fun hh : v = w => h hh.symm)]
  | cons p rest ih =>
    obtain ⟨k, c⟩ := p
    rw [distAdd]
    split
    · rename_i hk
      subst hk
      have hkw : ¬ k = w := fun hh => h hh.symm
      rw [distGet, distGet, if_neg hkw, if_neg hkw]
    · rw [distGet, distGet]
      split
      · rfl
      · exact ih

theorem distAdd_snd_sum (d : List (ℚ × Nat)) (v : ℚ) :
    ((distAdd d v).map Prod.snd).sum = (d.map Prod.snd).sum + 1 := by
  induction d with
  | nil => simp [distAdd]
  | cons p rest ih =>
    obtain ⟨k, c⟩ := p
    rw [distAdd]
    split
    · simp; omega
    · simp only [List.map_cons, List.sum_cons, ih]; omega

theorem foldl_distAdd_invariant :
    ∀ (rest : List ℚ) (d : List (ℚ × Nat)) (p : List ℚ),
      (∀ v : ℚ, distGet d v = if v ∈ p then some (p.count v) else none) →
      (d.map Prod.snd).sum = p.length →
      (∀ v : ℚ, distGet (rest.foldl distAdd d) v =
        if v ∈ p ++ rest then some ((p ++ rest).count v) else none) ∧
      ((rest.foldl distAdd d).map Prod.snd).sum = (p ++ rest).length := by
  intro rest
  induction rest with
  | nil => intro d p h1 h2; simpa using ⟨h1, h2⟩
  | cons x t ih =>
    intro d p h1 h2
    rw [List.foldl_cons]
    have h1' : ∀ v : ℚ, distGet (distAdd d x) v =
        if v ∈ p ++ [x] then some ((p ++ [x]).count v) else none := by
      intro v
      by_cases hv : v = x
      · subst hv
        rw [distGet_distAdd_self, h1 v]
        by_cases hm : v ∈ p
        · rw [if_pos hm, if_pos (by simp [hm])]
          simp [List.count_append]
        · rw [if_neg hm, if_pos (by simp)]
          simp [List.count_append, List.count_eq_zero.mpr hm]
      · rw [distGet_distAdd_ne d x v hv, h1 v]
        have hmem : v ∈ p ++ [x] ↔ v ∈ p := by simp [hv]
        by_cases hm : v ∈ p
        · rw [if_pos hm, if_pos (hmem.mpr hm)]
          simp [List.count_append, hv]
        · rw [if_neg hm, if_neg (fun hh => hm (hmem.mp hh))]
    have h2' : ((distAdd d x).map Prod.snd).sum = (p ++ [x]).length := by
      rw [distAdd_snd_sum, h2]
      simp
    have := ih (distAdd d x) (p ++ [x]) h1' h2'
    simpa [List.append_assoc] using this

/-- C7: the distribution built by `getDistribution` maps exactly the
values occurring in the list (and nothing else) to their occurrence
counts, and the counts sum to the length of the list. -/
theorem getDistribution_spec (values : List ℚ) :
    (∀ v : ℚ, distGet (getDistribution values) v =
      if v ∈ values then some (values.count v) else none) ∧
    ((getDistribution values).map Prod.snd).sum = values.length := by
  have := foldl_distAdd_invariant values [] []
    (by intro v; simp [distGet]) (by simp)
  simpa using this

/-! ## Annotation-line placement (claim C6)

`getXPositionForValue` (src/app.js lines 191-234) places a statistic on
the categorical x axis.  The axis labels are canonical number strings and
`labels.indexOf(targetValue.toString())` compares canonical strings, so
over numeric labels the exact-match test is value equality; the chart
library's `xScale.getPixelForValue` is abstracted as a function
`px : Nat → ℚ` from label index to pixel, and `xScale.width` as `width`. -/

/-- JS `labels.indexOf v` (first index, `none` for `-1`). -/
def indexOfQ : List ℚ → ℚ → Option Nat
  | [], _ => none
  | x :: rest, v => if x = v then some 0 else (indexOfQ rest v).map (· + 1)

/-- The `for` loop of `getXPositionForValue`: walks the labels carrying
`leftIndex` (last index whose label is `≤ target`) and breaks at the
first index whose label is `≥ target`, returning `(leftIndex,
rightIndex)` (`none` models `-1`). -/
def findLRAux : List ℚ → ℚ → Nat → Option Nat → Option Nat × Option Nat
  | [], _, _, left => (left, none)
  | v :: rest, t, i, left =>
    let left' := if v ≤ t then some i else left
    if t ≤ v then (left', some i) else findLRAux rest t (i + 1) left'

/-- `getXPositionForValue` from src/app.js lines 191-234 / part_000
lines 394-444 (`none` models the `return null` fall-through). -/
def getXPositionForValue (labels : List ℚ) (px : Nat → ℚ) (width : ℚ) (t : ℚ) : Option ℚ :=
  match indexOfQ labels t with
  | some i => some (px i)
  | none =>
    match findLRAux labels t 0 none with
    | (none, some r) => some (px r - width / (labels.length : ℚ) * (1 / 2))
    | (some l, none) => some (px l + width / (labels.length : ℚ) * (1 / 2))
    | (some l, some r) =>
      let leftX := px l
      let rightX := px r
      let leftVal := labels.getD l 0
      let rightVal := labels.getD r 0
      if leftVal = rightVal then some leftX
      else some (leftX + (rightX - leftX) * ((t - leftVal) / (rightVal - leftVal)))
    | (none, none) => none

theorem indexOfQ_eq_some_of_get {labels : List ℚ} {t : ℚ}
    (hnd : labels.Pairwise (· < ·)) :
    ∀ (i : Nat) (hi : i < labels.length), labels.get ⟨i, hi⟩ = t →
      indexOfQ labels t = some i := by
  induction labels with
  | nil => intro i hi; simp at hi
  | cons x rest ih =>
    intro i hi hget
    cases i with
    | zero =>
      rw [List.get] at hget
      rw [indexOfQ, if_pos hget]
    | succ j =>
      have hj : j < rest.length := by simpa using Nat.lt_of_succ_lt_succ hi
      have hmem : t ∈ rest := by
        rw [← hget]
        exact List.get_mem rest j hj
      have hxt : x < t := (List.pairwise_cons.mp hnd).1 t hmem
      rw [indexOfQ, if_neg (by intro hh; rw [hh] at hxt; exact lt_irrefl t hxt)]
      rw [ih (List.pairwise_cons.mp hnd).2 j hj hget]
      rfl

theorem indexOfQ_eq_none {labels : List ℚ} {t : ℚ} (h : t ∉ labels) :
    indexOfQ labels t = none := by
  induction labels with
  | nil => rfl
  | cons x rest ih =>
    rw [indexOfQ, if_neg (fun hh => h (by rw [← hh]; exact List.mem_cons_self x rest))]
    rw [ih (fun hh => h (List.mem_cons_of_mem x hh))]
    rfl

theorem findLRAux_all_lt :
    ∀ (ls : List ℚ) (t : ℚ) (i : Nat) (left : Option Nat), ls ≠ [] →
      (∀ v ∈ ls, v < t) →
      findLRAux ls t i left = (some (i + ls.length - 1), none) := by
  intro ls
  induction ls with
  | nil => intro t i left h; exact absurd rfl h
  | cons v rest ih =>
    intro t i left _ hall
    have hv : v < t := hall v (List.mem_cons_self v rest)
    rw [findLRAux]
    simp only [if_pos (le_of_lt hv), if_neg (not_le.mpr hv)]
    cases rest with
    | nil => simp [findLRAux]
    | cons w rest' =>
      rw [ih t (i + 1) (some i) (by simp)
        (fun u hu => hall u (List.mem_cons_of_mem v hu))]
      simp only [List.length_cons]
      congr 2
      omega

theorem findLRAux_head_gt (v : ℚ) (rest : List ℚ) (t : ℚ) (i : Nat)
    (left : Option Nat) (h : t < v) :
    findLRAux (v :: rest) t i left = (left, some i) := by
  rw [findLRAux]
  simp only [if_neg (not_le.mpr h), if_pos (le_of_lt h)]

theorem findLRAux_between :
    ∀ (ls : List ℚ) (t : ℚ) (i : Nat) (left : Option Nat) (j : Nat),
      j + 1 < ls.length →
      (∀ m, m ≤ j → ls.getD m 0 < t) →
      t < ls.getD (j + 1) 0 →
      findLRAux ls t i left = (some (i + j), some (i + j + 1)) := by
  intro ls
  induction ls with
  | nil => intro t i left j hj; simp at hj
  | cons v rest ih =>
    intro t i left j hj hlt hgt
    have hv : v < t := by simpa using hlt 0 (Nat.zero_le j)
    rw [findLRAux]
    simp only [if_pos (le_of_lt hv), if_neg (not_le.mpr hv)]
    cases j with
    | zero =>
      rw [List.getD_cons_succ] at hgt
      cases rest with
      | nil => simp at hj
      | cons w rest' =>
        rw [List.getD_cons_zero] at hgt
        rw [findLRAux_head_gt w rest' t (i + 1) (some i) hgt]
        simp
    | succ j' =>
      rw [List.getD_cons_succ] at hgt
      rw [ih t (i + 1) (some i) j' (by simpa using Nat.lt_of_succ_lt_succ hj)
        (fun m hm => by simpa using hlt (m + 1) (Nat.succ_le_succ hm)) hgt]
      refine Prod.ext ?_ ?_ <;> simp <;> omega

theorem pairwise_lt_getD {labels : List ℚ} (hsorted : labels.Pairwise (· < ·))
    {m n : Nat} (hn : n < labels.length) (hmn : m < n) :
    labels.getD m 0 < labels.getD n 0 := by
  have hm : m < labels.length := lt_trans hmn hn
  rw [List.getD_eq_get _ _ hm, List.getD_eq_get _ _ hn]
  exact List.pairwise_iff_get.mp hsorted ⟨m, hm⟩ ⟨n, hn⟩ hmn

/-- C6: with strictly increasing numeric labels, `getXPositionForValue`
returns the label's own pixel when the target equals a label value; the
linear interpolation `xL + (xR - xL) * (t - L) / (R - L)` when the
target lies strictly between the adjacent labels `L < R` (pixels `xL`,
`xR`); and the first/last label's pixel shifted outward by half a
category width (`width / labels.length * 0.5`) when the target lies
before the first or after the last label. -/
theorem getXPositionForValue_spec (labels : List ℚ) (px : Nat → ℚ) (width t : ℚ)
    (hsorted : labels.Pairwise (· < ·)) :
    (∀ (i : Nat) (hi : i < labels.length), labels.get ⟨i, hi⟩ = t →
      getXPositionForValue labels px width t = some (px i)) ∧
    (∀ (i : Nat), i + 1 < labels.length →
      labels.getD i 0 < t → t < labels.getD (i + 1) 0 →
      getXPositionForValue labels px width t =
        some (px i + (px (i + 1) - px i) *
          ((t - labels.getD i 0) / (labels.getD (i + 1) 0 - labels.getD i 0)))) ∧
    (0 < labels.length → t < labels.getD 0 0 →
      getXPositionForValue labels px width t =
        some (px 0 - width / (labels.length : ℚ) * (1 / 2))) ∧
    (0 < labels.length → labels.getD (labels.length - 1) 0 < t →
      getXPositionForValue labels px width t =
        some (px (labels.length - 1) + width / (labels.length : ℚ) * (1 / 2))) := by
  refine ⟨?_, ?_, ?_, ?_⟩
  · intro i hi hget
    simp only [getXPositionForValue, indexOfQ_eq_some_of_get hsorted i hi hget]
  · intro i hi hl hr
    have hnotmem : t ∉ labels := by
      intro hmem
      obtain ⟨⟨m, hm⟩, hget⟩ := List.mem_iff_get.mp hmem
      have hgetD : labels.getD m 0 = t := by rw [List.getD_eq_get _ _ hm, hget]
      rcases Nat.lt_or_ge m (i + 1) with hmi | hmi
      · rcases Nat.lt_or_ge m i with hmi' | hmi'
        · exact absurd hgetD (ne_of_lt (lt_trans (pairwise_lt_getD hsorted (by omega) hmi') hl))
        · have : m = i := by omega
          subst this
          exact absurd hgetD (ne_of_lt hl)
      · rcases Nat.lt_or_ge (i + 1) m with hmi' | hmi'
        · exact absurd hgetD (ne_of_gt (lt_trans hr (pairwise_lt_getD hsorted hm hmi')))
        · have : m = i + 1 := by omega
          subst this
          exact absurd hgetD (ne_of_gt hr)
    have hfind : findLRAux labels t 0 none = (some i, some (i + 1)) := by
      have := findLRAux_between labels t 0 none i hi ?_ hr
      · simpa using this
      · intro m hm
        rcases Nat.lt_or_ge m i with hmi | hmi
        · exact lt_trans (pairwise_lt_getD hsorted (by omega) hmi) hl
        · have : m = i := by omega
          subst this
          exact hl
    simp only [getXPositionForValue, indexOfQ_eq_none hnotmem, hfind,
      if_neg (ne_of_lt (lt_trans hl hr))]
  · intro h0 hlt
    cases hls : labels with
    | nil => rw [hls] at h0; simp at h0
    | cons v rest =>
      have hv : t < v := by rw [hls] at hlt; simpa using hlt
      have hnotmem : t ∉ labels := by
        intro hmem
        obtain ⟨⟨m, hm⟩, hget⟩ := List.mem_iff_get.mp hmem
        have hgetD : labels.getD m 0 = t := by rw [List.getD_eq_get _ _ hm, hget]
        rcases Nat.eq_zero_or_pos m with hm0 | hm0
        · subst hm0
          rw [hls] at hgetD
          simp only [List.getD_cons_zero] at hgetD
          exact absurd hgetD.symm (ne_of_lt hv)
        · have h00 : labels.getD 0 0 < labels.getD m 0 := pairwise_lt_getD hsorted hm hm0
          rw [hgetD, hls] at h00
          simp only [List.getD_cons_zero] at h00
          exact absurd h00 (not_lt.mpr (le_of_lt hv))
      rw [hls] at hnotmem
      simp only [getXPositionForValue, indexOfQ_eq_none hnotmem,
        findLRAux_head_gt v rest t 0 none hv]
  · intro h0 hgt
    have hall : ∀ v ∈ labels, v < t := by
      intro v hv
      obtain ⟨⟨m, hm⟩, hget⟩ := List.mem_iff_get.mp hv
      have hgetD : labels.getD m 0 = v := by rw [List.getD_eq_get _ _ hm, hget]
      rcases Nat.lt_or_ge m (labels.length - 1) with hm' | hm'
      · rw [← hgetD]
        exact lt_trans (pairwise_lt_getD hsorted (by omega) hm') hgt
      · have : m = labels.length - 1 := by omega
        subst this
        rw [← hgetD]
        exact hgt
    have hne : labels ≠ [] := by
      intro hh
      rw [hh] at h0
      simp at h0
    have hnotmem : t ∉ labels := fun hmem => lt_irrefl t (hall t hmem)
    have hfind := findLRAux_all_lt labels t 0 none hne hall
    rw [Nat.zero_add] at hfind
    simp only [getXPositionForValue, indexOfQ_eq_none hnotmem, hfind]

/-- Witness for C6: labels `[1, 2, 3]` at pixels `50, 60, 70`
(`px i = 50 + 10 i`), axis width `30`, target `3/2` strictly between the
adjacent labels `1` and `2`. -/
theorem getXPositionForValue_spec_witness :
    getXPositionForValue [1, 2, 3] (fun i => 50 + 10 * (i : ℚ)) 30 (3 / 2) =
      some (50 + 10 * ((0 : ℕ) : ℚ) +
        (50 + 10 * ((0 + 1 : ℕ) : ℚ) - (50 + 10 * ((0 : ℕ) : ℚ))) *
          ((3 / 2 - ([1, 2, 3] : List ℚ).getD 0 0) /
            (([1, 2, 3] : List ℚ).getD (0 + 1) 0 - ([1, 2, 3] : List ℚ).getD 0 0))) := by
  exact (getXPositionForValue_spec [1, 2, 3] (fun i => 50 + 10 * (i : ℚ)) 30 (3 / 2)
    (by norm_num [List.pairwise_cons])).2.1 0 (by norm_num) (by norm_num) (by norm_num)

/-! ## Dates (claims C4, C5)

`parseDate` (part_000 lines 155-171) strips quote characters, searches
the string for the first match of the regex
`/(\d{1,2})\.(\d{1,2})\.(\d{4})/` and builds `new Date(year, month - 1,
day)` — a local-midnight Date.  A Date is modelled by its timestamp;
`new Date(y, m, d)` normalises out-of-range month/day exactly as
ECMAScript `MakeDay` does, via the civil-calendar day count below
(time zones and DST are outside the embedding: local midnight is the
civil day count times 86 400 000 ms). -/

/-- Days since 1970-01-01 of the (proleptic Gregorian) civil date
`y-m-d` with `m` in `1..12` (standard era/day-of-year computation). -/
def daysFromCivil (y m d : Int) : Int :=
  let y' := if m ≤ 2 then y - 1 else y
  let era := y'.fdiv 400
  let yoe := y' - era * 400
  let mp := (m + 9).emod 12
  let doy := (153 * mp + 2).fdiv 5 + d - 1
  let doe := yoe * 365 + yoe.fdiv 4 - yoe.fdiv 100 + doy
  era * 146097 + doe - 719468

/-- ECMAScript `MakeDay(y, m0, d)` (zero-based month): the month rolls
into the year, the day offsets from the first of the month. -/
def jsMakeDay (y m0 d : Int) : Int :=
  daysFromCivil (y + m0.fdiv 12) (m0.emod 12 + 1) 1 + (d - 1)

/-- Timestamp (ms) of `new Date(y, m0, d)` at local midnight. -/
def jsDateMs (y m0 d : Int) : Int :=
  jsMakeDay y m0 d * 86400000

/-- Numeric value of a digit string. -/
def digitsVal (l : List Char) : Nat :=
  l.foldl (fun a c => a * 10 + (c.toNat - 48)) 0

/-- Match exactly `k` digits at the front (regex `\d{k}`), returning the
value and the rest. -/
def matchNum (k : Nat) (cs : List Char) : Option (Nat × List Char) :=
  if (cs.take k).length = k ∧ (cs.take k).all Char.isDigit then
    some (digitsVal (cs.take k), cs.drop k)
  else none

/-- Match a literal `.` at the front. -/
def expectDot : List Char → Option (List Char)
  | c :: r => if c = '.' then some r else none
  | [] => none

/-- The year tail `(\d{4})`: on success the triple is complete and any
remaining characters are ignored. -/
def matchYearTail (d m : Nat) (cs : List Char) : Option (Nat × Nat × Nat) :=
  match matchNum 4 cs with
  | some (y, _) => some (d, m, y)
  | none => none

/-- One month alternative `\d{k}\.(\d{4})` (`k` digits of month, a dot,
then the year). -/
def matchMonthTail (d k : Nat) (cs : List Char) : Option (Nat × Nat × Nat) :=
  match matchNum k cs with
  | some (m, r1) =>
    match expectDot r1 with
    | some r2 => matchYearTail d m r2
    | none => none
  | none => none

/-- Month and year `(\d{1,2})\.(\d{4})`: the greedy two-digit month is
tried first, backtracking to one digit if the rest fails. -/
def matchMY (d : Nat) (cs : List Char) : Option (Nat × Nat × Nat) :=
  match matchMonthTail d 2 cs with
  | some r => some r
  | none => matchMonthTail d 1 cs

/-- One day alternative `\d{k}\.` followed by month and year. -/
def matchDayTail (k : Nat) (cs : List Char) : Option (Nat × Nat × Nat) :=
  match matchNum k cs with
  | some (d, r1) =>
    match expectDot r1 with
    | some r2 => matchMY d r2
    | none => none
  | none => none

/-- Whole pattern `(\d{1,2})\.(\d{1,2})\.(\d{4})` anchored at the front:
the greedy two-digit day is tried first, backtracking to one digit. -/
def matchDMY (cs : List Char) : Option (Nat × Nat × Nat) :=
  match matchDayTail 2 cs with
  | some r => some r
  | none => matchDayTail 1 cs

/-- Regex search: the match at the leftmost possible start position. -/
def findDMY : List Char → Option (Nat × Nat × Nat)
  | [] => none
  | c :: rest =>
    match matchDMY (c :: rest) with
    | some r => some r
    | none => findDMY rest

/-- `dateString.replace(/['"]/g, "")`. -/
def cleanQuotes (cs : List Char) : List Char :=
  cs.filter fun c => decide (¬ (c = squote ∨ c = dquote))

/-- `parseDate` from part_000 lines 155-171: `none` input models
`null`/`undefined`/non-string arguments; the result is the timestamp of
the constructed `Date` (always a local midnight). -/
def parseDate (s : Option String) : Option Int :=
  match s with
  | none => none
  | some str =>
    if str = "" then none
    else
      match findDMY (cleanQuotes str.toList) with
      | some (d, m, y) => some (jsDateMs (y : Int) ((m : Int) - 1) (d : Int))
      | none => none

/-- `getFilteredData` from part_000 lines 187-234, restricted to its
pure filtering core: the detected date column, the rows, and the two
`YYYY-MM-DD` filter inputs already split into `(year, month, day)`
(`none` models an absent column / empty input).  `toDate.setHours(23,
59, 59, 999)` adds `86399999` ms to the local-midnight `to` date. -/
def getFilteredData (dateColumn : Option String) (rows : List Obj)
    (dateFrom dateTo : Option (Int × Int × Int)) : List Obj :=
  match dateColumn with
  | none => rows
  | some dc =>
    match dateFrom, dateTo with
    | some (fy, fm, fd), some (ty, tm, td) =>
      let fromMs := jsDateMs fy (fm - 1) fd
      let toMs := jsDateMs ty (tm - 1) td + 86399999
      rows.filter fun row =>
        match parseDate (objGet row dc) with
        | none => false
        | some ms => decide (fromMs ≤ ms ∧ ms ≤ toMs)
    | _, _ => rows

theorem parseDate_midnight {s : Option String} {ms : Int}
    (h : parseDate s = some ms) : ∃ k : Int, ms = k * 86400000 := by
  cases s with
  | none => simp [parseDate] at h
  | some str =>
    simp only [parseDate] at h
    split at h
    · cases h
    · split at h
      · rename_i d m y heq
        cases h
        exact ⟨jsMakeDay (y : Int) ((m : Int) - 1) (d : Int), rfl⟩
      · cases h

/-- C4: with a date column detected and both filter dates set,
`getFilteredData` keeps exactly the rows whose date value parses, with
the parsed civil day lying between the from-day and the to-day,
both bounds inclusive (the `setHours(23,59,59,999)` shift of `+86399999`
ms makes the upper bound cover the entire to-day); every row whose date
value fails to parse is excluded. -/
theorem getFilteredData_spec (dc : String) (rows : List Obj)
    (fy fm fd ty tm td : Int) :
    getFilteredData (some dc) rows (some (fy, fm, fd)) (some (ty, tm, td)) =
      rows.filter fun row =>
        match parseDate (objGet row dc) with
        | none => false
        | some ms =>
          decide (jsMakeDay fy (fm - 1) fd ≤ ms.fdiv 86400000 ∧
            ms.fdiv 86400000 ≤ jsMakeDay ty (tm - 1) td) := by
  simp only [getFilteredData]
  refine List.filter_congr ?_
  intro row _
  cases hp : parseDate (objGet row dc) with
  | none => rfl
  | some ms =>
    obtain ⟨k, rfl⟩ := parseDate_midnight hp
    show decide _ = decide _
    rw [decide_eq_decide, Int.mul_fdiv_cancel _ (by norm_num : (86400000 : ℤ) ≠ 0)]
    unfold jsDateMs
    omega

/-! ### Declarative description of the date pattern (claim C5) -/

theorem getD_take (cs : List Char) (k j : Nat) (d : Char) (hjk : j < k) :
    (cs.take k).getD j d = cs.getD j d := by
  rw [List.getD_eq_getD_get?, List.getD_eq_getD_get?, List.get?_eq_getElem?,
    List.get?_eq_getElem?, List.getElem?_take_of_lt hjk]

theorem getD_drop (cs : List Char) (n j : Nat) (d : Char) :
    (cs.drop n).getD j d = cs.getD (n + j) d := by
  rw [List.getD_eq_getD_get?, List.getD_eq_getD_get?, List.get?_eq_getElem?,
    List.get?_eq_getElem?, List.getElem?_drop]

theorem getD_eq_of_lt_length {cs : List Char} {j : Nat} {d : Char}
    (h : j < cs.length) : cs.getD j d ∈ cs := by
  rw [List.getD_eq_get _ _ h]
  exact List.get_mem cs j h

theorem take_all_digits_iff {k : Nat} {cs : List Char} :
    ((cs.take k).length = k ∧ (cs.take k).all Char.isDigit = true) ↔
      (k ≤ cs.length ∧ ∀ j, j < k → (cs.getD j ' ').isDigit = true) := by
  constructor
  · rintro ⟨hlen, hall⟩
    have hk : k ≤ cs.length := by
      rw [List.length_take] at hlen
      omega
    refine ⟨hk, ?_⟩
    intro j hj
    rw [← getD_take cs k j ' ' hj]
    have hjl : j < (cs.take k).length := by
      rw [List.length_take]
      omega
    exact List.all_eq_true.mp hall _ (getD_eq_of_lt_length hjl)
  · rintro ⟨hk, hdig⟩
    have hlen : (cs.take k).length = k := by
      rw [List.length_take]
      omega
    refine ⟨hlen, List.all_eq_true.mpr ?_⟩
    intro x hx
    obtain ⟨⟨j, hj⟩, hget⟩ := List.mem_iff_get.mp hx
    rw [← hget, ← List.getD_eq_get _ ' ' hj, getD_take cs k j ' ' (by omega)]
    exact hdig j (by rw [hlen] at hj; omega)

theorem matchNum_some_of {k : Nat} {cs : List Char} (hk : k ≤ cs.length)
    (hdig : ∀ j, j < k → (cs.getD j ' ').isDigit = true) :
    matchNum k cs = some (digitsVal (cs.take k), cs.drop k) := by
  unfold matchNum
  rw [if_pos (take_all_digits_iff.mpr ⟨hk, hdig⟩)]

theorem matchNum_eq_some {k : Nat} {cs : List Char} {v : Nat} {r : List Char}
    (h : matchNum k cs = some (v, r)) :
    v = digitsVal (cs.take k) ∧ r = cs.drop k ∧ k ≤ cs.length ∧
      ∀ j, j < k → (cs.getD j ' ').isDigit = true := by
  unfold matchNum at h
  split at h
  · rename_i hc
    obtain ⟨h1, h2⟩ := take_all_digits_iff.mp hc
    cases h
    exact ⟨rfl, rfl, h1, h2⟩
  · cases h

theorem matchNum_none_of_nondigit {k j : Nat} {cs : List Char} (hjk : j < k)
    (hnd : (cs.getD j ' ').isDigit = false) : matchNum k cs = none := by
  unfold matchNum
  rw [if_neg]
  intro hc
  obtain ⟨-, hdig⟩ := take_all_digits_iff.mp hc
  rw [hdig j hjk] at hnd
  cases hnd

theorem expectDot_eq_some {cs r : List Char} :
    expectDot cs = some r ↔ cs = '.' :: r := by
  cases cs with
  | nil => simp [expectDot]
  | cons c t =>
    rw [expectDot]
    split
    · rename_i hc
      subst hc
      constructor
      · intro h; cases h; rfl
      · intro h; cases h; rfl
    · rename_i hc
      constructor
      · intro h; cases h
      · intro h
        cases h
        exact absurd rfl hc

theorem drop_eq_getD_cons {cs : List Char} {n : Nat} (h : n < cs.length) :
    cs.drop n = cs.getD n ' ' :: cs.drop (n + 1) := by
  rw [List.getD_eq_get _ _ h]
  exact List.drop_eq_get_cons h

/-- The spec side of claim C5: at offsets `0..k1-1` a `k1`-digit day, a
dot, a `k2`-digit month, a dot, then four year digits (the text may
continue arbitrarily afterwards). -/
def isPatternAtWith (l : List Char) (k1 k2 : Nat) : Prop :=
  k1 + 1 + k2 + 1 + 4 ≤ l.length ∧
  (∀ j, j < k1 → (l.getD j ' ').isDigit = true) ∧
  l.getD k1 ' ' = '.' ∧
  (∀ j, j < k2 → (l.getD (k1 + 1 + j) ' ').isDigit = true) ∧
  l.getD (k1 + 1 + k2) ' ' = '.' ∧
  (∀ j, j < 4 → (l.getD (k1 + 1 + k2 + 1 + j) ' ').isDigit = true)

instance (l : List Char) (k1 k2 : Nat) : Decidable (isPatternAtWith l k1 k2) := by
  unfold isPatternAtWith
  infer_instance

/-- A `DD.MM.YYYY` pattern (1-2 digit day and month, 4-digit year)
starts at the front of `l`. -/
def isPatternAt (l : List Char) : Prop :=
  ∃ k1, k1 < 3 ∧ 1 ≤ k1 ∧ ∃ k2, k2 < 3 ∧ 1 ≤ k2 ∧ isPatternAtWith l k1 k2

instance (l : List Char) : Decidable (isPatternAt l) := by
  unfold isPatternAt
  infer_instance

/-- The string contains a `DD.MM.YYYY` pattern somewhere. -/
def hasDatePattern (cs : List Char) : Prop :=
  ∃ i, i < cs.length + 1 ∧ isPatternAt (cs.drop i)

instance (cs : List Char) : Decidable (hasDatePattern cs) := by
  unfold hasDatePattern
  infer_instance

theorem matchMY_of_pattern {l : List Char} {k1 k2 : Nat} (d : Nat)
    (hk2 : k2 = 1 ∨ k2 = 2) (hp : isPatternAtWith l k1 k2) :
    matchMY d (l.drop (k1 + 1)) =
      some (d, digitsVal ((l.drop (k1 + 1)).take k2),
        digitsVal ((l.drop (k1 + 1 + k2 + 1)).take 4)) := by
  obtain ⟨hlen, -, -, hm, hdot2, hy⟩ := hp
  have hyear : matchNum 4 (l.drop (k1 + 1 + k2 + 1)) =
      some (digitsVal ((l.drop (k1 + 1 + k2 + 1)).take 4),
        (l.drop (k1 + 1 + k2 + 1)).drop 4) := by
    refine matchNum_some_of ?_ ?_
    · rw [List.length_drop]; omega
    · intro j hj
      rw [getD_drop]
      exact hy j hj
  have hdotstep : l.drop (k1 + 1 + k2) = '.' :: l.drop (k1 + 1 + k2 + 1) := by
    rw [drop_eq_getD_cons (show k1 + 1 + k2 < l.length by omega), hdot2]
  have hmonth : matchNum k2 (l.drop (k1 + 1)) =
      some (digitsVal ((l.drop (k1 + 1)).take k2), (l.drop (k1 + 1)).drop k2) := by
    refine matchNum_some_of ?_ ?_
    · rw [List.length_drop]; omega
    · intro j hj
      rw [getD_drop]
      exact hm j hj
  have hdrop2 : (l.drop (k1 + 1)).drop k2 = l.drop (k1 + 1 + k2) := by
    rw [List.drop_drop]
  have hmt : matchMonthTail d k2 (l.drop (k1 + 1)) =
      some (d, digitsVal ((l.drop (k1 + 1)).take k2),
        digitsVal ((l.drop (k1 + 1 + k2 + 1)).take 4)) := by
    simp [matchMonthTail, hmonth, hdrop2, hdotstep, expectDot, matchYearTail, hyear]
  rcases hk2 with hk2 | hk2
  · subst hk2
    have h2 : matchNum 2 (l.drop (k1 + 1)) = none := by
      refine matchNum_none_of_nondigit (show (1 : Nat) < 2 by omega) ?_
      rw [getD_drop, hdot2]
      decide
    rw [matchMY, matchMonthTail, h2, hmt]
  · subst hk2
    rw [matchMY, hmt]

theorem matchDMY_of_pattern {l : List Char} {k1 k2 : Nat}
    (hk1 : k1 = 1 ∨ k1 = 2) (hk2 : k2 = 1 ∨ k2 = 2)
    (hp : isPatternAtWith l k1 k2) :
    matchDMY l = some (digitsVal (l.take k1),
      digitsVal ((l.drop (k1 + 1)).take k2),
      digitsVal ((l.drop (k1 + 1 + k2 + 1)).take 4)) := by
  have hlen := hp.1
  have hd1 := hp.2.1
  have hdot1 := hp.2.2.1
  have hday : matchNum k1 l = some (digitsVal (l.take k1), l.drop k1) := by
    refine matchNum_some_of (by omega) ?_
    intro j hj
    exact hd1 j hj
  have hdotstep : l.drop k1 = '.' :: l.drop (k1 + 1) := by
    rw [drop_eq_getD_cons (show k1 < l.length by omega), hdot1]
  have hmy := matchMY_of_pattern (digitsVal (l.take k1)) hk2 hp
  have hdt : matchDayTail k1 l = some (digitsVal (l.take k1),
      digitsVal ((l.drop (k1 + 1)).take k2),
      digitsVal ((l.drop (k1 + 1 + k2 + 1)).take 4)) := by
    simp [matchDayTail, hday, hdotstep, expectDot, hmy]
  rcases hk1 with hk1 | hk1
  · subst hk1
    have h2 : matchNum 2 l = none := by
      refine matchNum_none_of_nondigit (show (1 : Nat) < 2 by omega) ?_
      rw [hdot1]
      decide
    rw [matchDMY, matchDayTail, h2, hdt]
  · subst hk1
    rw [matchDMY, hdt]

theorem matchYearTail_some {d m : Nat} {cs : List Char} {r : Nat × Nat × Nat}
    (h : matchYearTail d m cs = some r) :
    4 ≤ cs.length ∧ ∀ j, j < 4 → (cs.getD j ' ').isDigit = true := by
  simp only [matchYearTail] at h
  split at h
  · rename_i y rest heq
    obtain ⟨-, -, h1, h2⟩ := matchNum_eq_some heq
    exact ⟨h1, h2⟩
  · cases h

theorem matchMonthTail_some {d k : Nat} {cs : List Char} {r : Nat × Nat × Nat}
    (h : matchMonthTail d k cs = some r) :
    k < cs.length ∧ (∀ j, j < k → (cs.getD j ' ').isDigit = true) ∧
      cs.getD k ' ' = '.' ∧ 4 ≤ (cs.drop (k + 1)).length ∧
      ∀ j, j < 4 → ((cs.drop (k + 1)).getD j ' ').isDigit = true := by
  simp only [matchMonthTail] at h
  split at h
  · rename_i m r1 heq
    obtain ⟨-, hr1, hklen, hdig⟩ := matchNum_eq_some heq
    split at h
    · rename_i r2 hdot
      have hr1' := expectDot_eq_some.mp hdot
      rw [hr1] at hr1'
      have hklt : k < cs.length := by
        have hl := congrArg List.length hr1'
        rw [List.length_drop, List.length_cons] at hl
        omega
      have hcons := drop_eq_getD_cons hklt
      rw [hr1'] at hcons
      injection hcons with hd hrest
      obtain ⟨hy1, hy2⟩ := matchYearTail_some h
      rw [← hrest]
      exact ⟨hklt, hdig, hd.symm, hy1, hy2⟩
    · cases h
  · cases h

theorem matchMY_some {d : Nat} {cs : List Char} {r : Nat × Nat × Nat}
    (h : matchMY d cs = some r) :
    ∃ k2, (k2 = 1 ∨ k2 = 2) ∧ k2 < cs.length ∧
      (∀ j, j < k2 → (cs.getD j ' ').isDigit = true) ∧
      cs.getD k2 ' ' = '.' ∧ 4 ≤ (cs.drop (k2 + 1)).length ∧
      ∀ j, j < 4 → ((cs.drop (k2 + 1)).getD j ' ').isDigit = true := by
  simp only [matchMY] at h
  split at h
  · rename_i r0 heq
    cases h
    exact ⟨2, Or.inr rfl, matchMonthTail_some heq⟩
  · exact ⟨1, Or.inl rfl, matchMonthTail_some h⟩

theorem isPatternAt_of_matchDayTail {l : List Char} {k1 : Nat} {r : Nat × Nat × Nat}
    (hk1 : k1 = 1 ∨ k1 = 2) (h : matchDayTail k1 l = some r) : isPatternAt l := by
  simp only [matchDayTail] at h
  split at h
  · rename_i d r1 heq
    obtain ⟨-, hr1, hklen, hdig⟩ := matchNum_eq_some heq
    split at h
    · rename_i r2 hdot
      have hr1' := expectDot_eq_some.mp hdot
      rw [hr1] at hr1'
      have hklt : k1 < l.length := by
        have hl := congrArg List.length hr1'
        rw [List.length_drop, List.length_cons] at hl
        omega
      have hcons := drop_eq_getD_cons hklt
      rw [hr1'] at hcons
      injection hcons with hd hrest
      rw [hrest] at h
      obtain ⟨k2, hk2, hlen2, hm, hdot2, hylen, hy⟩ := matchMY_some h
      rw [List.length_drop] at hlen2
      rw [List.drop_drop, List.length_drop] at hylen
      refine ⟨k1, by omega, by omega, k2, by omega, by omega, ?_, hdig, hd.symm, ?_, ?_, ?_⟩
      · omega
      · intro j hj
        rw [← getD_drop]
        exact hm j hj
      · rw [← getD_drop]
        exact hdot2
      · intro j hj
        have hthis := hy j hj
        rw [List.drop_drop] at hthis
        rw [show k1 + 1 + k2 + 1 + j = k1 + 1 + (k2 + 1) + j from by omega, ← getD_drop]
        exact hthis
    · cases h
  · cases h

theorem isPatternAt_of_matchDMY {l : List Char} {r : Nat × Nat × Nat}
    (h : matchDMY l = some r) : isPatternAt l := by
  simp only [matchDMY] at h
  split at h
  · rename_i r0 heq
    cases h
    exact isPatternAt_of_matchDayTail (Or.inr rfl) heq
  · exact isPatternAt_of_matchDayTail (Or.inl rfl) h

theorem matchDMY_eq_none_iff {l : List Char} :
    matchDMY l = none ↔ ¬ isPatternAt l := by
  constructor
  · intro h hp
    obtain ⟨k1, hk1a, hk1b, k2, hk2a, hk2b, hp'⟩ := hp
    rw [matchDMY_of_pattern (by omega) (by omega) hp'] at h
    cases h
  · intro h
    cases hm : matchDMY l with
    | none => rfl
    | some r => exact absurd (isPatternAt_of_matchDMY hm) h

theorem findDMY_eq_none_iff {cs : List Char} :
    findDMY cs = none ↔ ∀ i, matchDMY (cs.drop i) = none := by
  induction cs with
  | nil =>
    constructor
    · intro _ i
      rw [List.drop_nil]
      decide
    · intro _
      rfl
  | cons c rest ih =>
    rw [findDMY]
    split
    · rename_i r heq
      constructor
      · intro h; cases h
      · intro hall
        have := hall 0
        rw [List.drop_zero, heq] at this
        cases this
    · rename_i heq
      rw [ih]
      constructor
      · intro h i
        cases i with
        | zero => rw [List.drop_zero]; exact heq
        | succ i' => rw [List.drop_succ_cons]; exact h i'
      · intro h i
        have := h (i + 1)
        rw [List.drop_succ_cons] at this
        exact this

theorem findDMY_eq_none_iff_no_pattern {cs : List Char} :
    findDMY cs = none ↔ ¬ hasDatePattern cs := by
  rw [findDMY_eq_none_iff]
  constructor
  · rintro h ⟨i, hi, hp⟩
    exact absurd hp (matchDMY_eq_none_iff.mp (h i))
  · intro h i
    rw [matchDMY_eq_none_iff]
    intro hp
    by_cases hi : i ≤ cs.length
    · exact h ⟨i, by omega, hp⟩
    · have hnil : cs.drop i = [] := List.drop_eq_nil_of_le (by omega)
      rw [hnil] at hp
      obtain ⟨k1, -, -, k2, -, -, hlen, -⟩ := hp
      simp at hlen

theorem not_hasDatePattern_nil : ¬ hasDatePattern [] := by
  rintro ⟨i, hi, k1, -, -, k2, -, -, hlen, -⟩
  rw [List.drop_nil] at hlen
  simp at hlen

/-- C5 amended: `parseDate` maps `null`/non-string input to `null`;
it returns `null` iff the input, after deleting apostrophe and
double-quote characters, contains no `DD.MM.YYYY` pattern; and on a
string starting with the pattern (two-digit day, one-digit month shown
here in full generality, arbitrary trailing text such as `", HH:MM"`),
it returns the date built from the day, month and year taken from the
pattern, ignoring the time suffix. -/
theorem parseDate_spec :
    parseDate none = none ∧
    (∀ s : String, parseDate (some s) = none ↔ ¬ hasDatePattern (cleanQuotes s.toList)) ∧
    (∀ (d1 d2 m1 y1 y2 y3 y4 : Char) (suffix : List Char),
      d1.isDigit = true → d2.isDigit = true → m1.isDigit = true →
      y1.isDigit = true → y2.isDigit = true → y3.isDigit = true → y4.isDigit = true →
      parseDate (some (⟨[d1, d2, '.', m1, '.', y1, y2, y3, y4] ++ suffix⟩ : String)) =
        some (jsDateMs (digitsVal [y1, y2, y3, y4] : Int)
          ((digitsVal [m1] : Int) - 1) (digitsVal [d1, d2] : Int))) := by
  refine ⟨rfl, ?_, ?_⟩
  · intro s
    simp only [parseDate]
    split
    · rename_i hs
      subst hs
      constructor
      · intro _
        exact not_hasDatePattern_nil
      · intro _
        rfl
    · split
      · rename_i d m y hfind
        constructor
        · intro h
          cases h
        · intro hno
          have := findDMY_eq_none_iff_no_pattern.mpr hno
          rw [hfind] at this
          cases this
      · rename_i hfind
        constructor
        · intro _
          exact findDMY_eq_none_iff_no_pattern.mp hfind
        · intro _
          rfl
  · intro d1 d2 m1 y1 y2 y3 y4 suffix hd1 hd2 hm1 hy1 hy2 hy3 hy4
    have hq : ∀ c : Char, c.isDigit = true →
        (decide (¬ (c = squote ∨ c = dquote))) = true := by
      intro c hc
      rw [decide_eq_true_eq]
      rintro (rfl | rfl)
      · exact absurd hc (by decide)
      · exact absurd hc (by decide)
    have hclean : cleanQuotes ([d1, d2, '.', m1, '.', y1, y2, y3, y4] ++ suffix) =
        [d1, d2, '.', m1, '.', y1, y2, y3, y4] ++ cleanQuotes suffix := by
      unfold cleanQuotes
      rw [List.filter_append]
      congr 1
      simp only [List.filter_cons, if_pos (hq d1 hd1), if_pos (hq d2 hd2),
        if_pos (show (decide (¬ ('.' = squote ∨ '.' = dquote))) = true from by decide),
        if_pos (hq m1 hm1), if_pos (hq y1 hy1), if_pos (hq y2 hy2),
        if_pos (hq y3 hy3), if_pos (hq y4 hy4), List.filter_nil]
    have hpattern : isPatternAtWith
        ([d1, d2, '.', m1, '.', y1, y2, y3, y4] ++ cleanQuotes suffix) 2 1 := by
      refine ⟨?_, ?_, rfl, ?_, rfl, ?_⟩
      · rw [List.length_append]
        simp
      · intro j hj
        match j, hj with
        | 0, _ => exact hd1
        | 1, _ => exact hd2
      · intro j hj
        match j, hj with
        | 0, _ => exact hm1
      · intro j hj
        match j, hj with
        | 0, _ => exact hy1
        | 1, _ => exact hy2
        | 2, _ => exact hy3
        | 3, _ => exact hy4
    have hmatch := matchDMY_of_pattern (Or.inr rfl) (Or.inl rfl) hpattern
    have hfind : findDMY ([d1, d2, '.', m1, '.', y1, y2, y3, y4] ++ cleanQuotes suffix) =
        some (digitsVal [d1, d2], digitsVal [m1], digitsVal [y1, y2, y3, y4]) := by
      rw [show ([d1, d2, '.', m1, '.', y1, y2, y3, y4] ++ cleanQuotes suffix) =
        d1 :: ([d2, '.', m1, '.', y1, y2, y3, y4] ++ cleanQuotes suffix) from rfl]
      rw [findDMY]
      rw [show d1 :: ([d2, '.', m1, '.', y1, y2, y3, y4] ++ cleanQuotes suffix) =
        ([d1, d2, '.', m1, '.', y1, y2, y3, y4] ++ cleanQuotes suffix) from rfl]
      rw [hmatch]
      rfl
    have hne : (⟨[d1, d2, '.', m1, '.', y1, y2, y3, y4] ++ suffix⟩ : String) ≠ "" := by
      intro hh
      have := congrArg String.data hh
      simp at this
    simp only [parseDate, if_neg hne]
    rw [show (⟨[d1, d2, '.', m1, '.', y1, y2, y3, y4] ++ suffix⟩ : String).toList =
      [d1, d2, '.', m1, '.', y1, y2, y3, y4] ++ suffix from rfl]
    rw [hclean, hfind]

/-- C5 fails as stated on an input whose double-quote character
interrupts the pattern: `1.2".2024` contains no `DD.MM.YYYY` pattern as
written, yet `parseDate` does not return `null`, because the code
deletes quote characters before matching. -/
theorem parseDate_counterexample :
    ¬ (parseDate (some "1.2\".2024") = none ↔
        ¬ hasDatePattern ("1.2\".2024".toList)) := by
  intro h
  have h1 : ¬ hasDatePattern ("1.2\".2024".toList) := by decide
  have h2 : parseDate (some "1.2\".2024") = none := h.mpr h1
  have h3 : parseDate (some "1.2\".2024") ≠ none := by decide
  exact h3 h2

/-- Witness for C5 at the concrete input `"01.2.2024, 10:30"`:
day `01`, month `2`, year `2024`, the `", 10:30"` time suffix ignored. -/
theorem parseDate_spec_witness :
    parseDate (some "01.2.2024, 10:30") =
      some (jsDateMs (digitsVal ['2', '0', '2', '4'] : Int)
        ((digitsVal ['2'] : Int) - 1) (digitsVal ['0', '1'] : Int)) := by
  have h := parseDate_spec.2.2 '0' '1' '2' '2' '0' '2' '4' (", 10:30".toList)
    (by decide) (by decide) (by decide) (by decide) (by decide) (by decide) (by decide)
  rw [show (⟨['0', '1', '.', '2', '.', '2', '0', '2', '4'] ++ (", 10:30".toList)⟩ : String) =
    "01.2.2024, 10:30" from by decide] at h
  exact h
